import Mathlib

/-!
Verification development for the video-transcription tool in `app.py`.

The Python source is shallowly embedded: strings are `List Char`, the
audio waveform is a `List Int` of samples indexed in milliseconds, and
the external collaborators (silence detector, speech-recognition
service) are modelled as explicit inputs describing their outcome.
-/

set_option maxHeartbeats 1000000

/-- One step of Python `str.strip()`: remove leading whitespace.
Mirrors the default-whitespace behaviour for the ASCII whitespace
characters that `Char.isWhitespace` covers. -/
def dropWS : List Char → List Char
  | [] => []
  | c :: cs => if c.isWhitespace then dropWS cs else c :: cs

/-- Python `str.strip()` with no argument: remove leading and trailing
whitespace (strip the front, reverse, strip the front again, reverse). -/
def pyStrip (l : List Char) : List Char :=
  (dropWS (dropWS l).reverse).reverse

/-- Python `transcript.split('. ')` (app.py line 202): cut the string at
every non-overlapping occurrence of the two-character separator
`". "`, scanning left to right.  Always returns at least one
(possibly empty) fragment, as Python does. -/
def splitDotSpace : List Char → List (List Char)
  | [] => [[]]
  | '.' :: ' ' :: rest => [] :: splitDotSpace rest
  | c :: rest =>
    match splitDotSpace rest with
    | [] => [[c]]
    | t :: ts => (c :: t) :: ts

/-- Python `f"{n:02d}"`: decimal digits of `n`, left-padded with one
zero when `n` has a single digit (app.py lines 219-220). -/
def fmt2 (n : Nat) : List Char :=
  if n < 10 then '0' :: Nat.toDigits 10 n else Nat.toDigits 10 n

/-- The `HH:MM:SS,000` timestamp built in app.py lines 210-220 from a
time in whole seconds. -/
def fmtTime (t : Nat) : List Char :=
  fmt2 (t / 3600) ++ ':' :: fmt2 ((t % 3600) / 60) ++ ':' :: fmt2 (t % 60) ++ ",000".toList

/-- The caption block appended for fragment `line` at index `i` with
chunk duration `D` (app.py lines 207-221): sequence number `i+1`,
the `start --> end` range line, then the stripped fragment with a
period appended and a blank separator line. -/
def srtBlock (D i : Nat) (line : List Char) : List Char :=
  Nat.toDigits 10 (i + 1) ++ '\n' ::
    (fmtTime (i * D) ++ " --> ".toList ++ fmtTime ((i + 1) * D) ++ '\n' ::
      ((pyStrip line ++ ".".toList) ++ "\n\n".toList))

/-- The function `create_srt_content` (app.py lines 200-223): split the transcript on
`". "`, and for every fragment that is non-empty after stripping,
append its caption block to the accumulated output string. -/
def create_srt_content (transcript : List Char) (chunk_duration : Nat) : List Char :=
  let lines := splitDotSpace transcript
  lines.enum.foldl
    (fun srt_content p =>
      if pyStrip p.2 = [] then srt_content
      else srt_content ++ srtBlock chunk_duration p.1 p.2) []

/-- One caption entry of the subtitle document: sequence number, start
and end time in seconds, and the text line. -/
structure Caption where
  num : Nat
  startSec : Nat
  endSec : Nat
  text : List Char
  deriving DecidableEq

/-- The caption (if any) a fragment at enumeration index `p.1`
contributes: fragments that are blank after stripping contribute
nothing but still occupy their index; the others carry number
`i+1`, the synthetic range `[i*D, (i+1)*D]`, and the stripped text
with one period appended. -/
def capOf (D : Nat) (p : Nat × List Char) : Option Caption :=
  if pyStrip p.2 = [] then none
  else some ⟨p.1 + 1, p.1 * D, (p.1 + 1) * D, pyStrip p.2 ++ ".".toList⟩

/-- The sequence of caption entries `create_srt_content` emits. -/
def srtCaptions (transcript : List Char) (D : Nat) : List Caption :=
  (splitDotSpace transcript).enum.filterMap (capOf D)

/-- Rendering of one caption entry, matching the f-strings of app.py
lines 218-221. -/
def renderCaption (c : Caption) : List Char :=
  Nat.toDigits 10 c.num ++ '\n' ::
    (fmtTime c.startSec ++ " --> ".toList ++ fmtTime c.endSec ++ '\n' ::
      (c.text ++ "\n\n".toList))

/-- Does the text line end in exactly one period (a final `'.'` not
preceded by another `'.'`)? -/
def endsWithSingleDot (t : List Char) : Bool :=
  match t.reverse with
  | '.' :: rest =>
    match rest with
    | [] => true
    | c :: _ => !(c == '.')
  | _ => false

/-- The transcript of the round-trip example in the spec. -/
def demoHello : List Char := "Hello world. This is a test. Goodbye.".toList

/-- A transcript whose split on `". "` contains a blank fragment. -/
def demoBlank : List Char := "a. . b".toList

theorem srtBlock_eq_render (D i : Nat) (line : List Char) :
    srtBlock D i line = renderCaption ⟨i + 1, i * D, (i + 1) * D, pyStrip line ++ ".".toList⟩ := rfl

/-- C1 (counterexample): on the round-trip example the third caption's
text line is `"Goodbye.."`, which does not end with a single
trailing period, refuting the claim that every block's text line
does. -/
theorem C1_counterexample :
    (srtCaptions demoHello 30).map (fun c => endsWithSingleDot c.text) = [true, true, false] := by
  decide

/-- C1 (amended): for the transcript `"Hello world. This is a test.
Goodbye."` and chunk duration 30, `create_srt_content` produces
exactly 3 caption blocks, numbered 1, 2, 3, with time ranges
00:00:00,000-->00:00:30,000, 00:00:30,000-->00:01:00,000 and
00:01:00,000-->00:01:30,000; each block's text is the stripped
fragment with one period appended, so the first two text lines end
with a single trailing period while the third reads `"Goodbye.."`
(its fragment already ended in a period). -/
theorem C1_amended :
    create_srt_content demoHello 30 =
      ("1\n00:00:00,000 --> 00:00:30,000\nHello world.\n\n" ++
       "2\n00:00:30,000 --> 00:01:00,000\nThis is a test.\n\n" ++
       "3\n00:01:00,000 --> 00:01:30,000\nGoodbye..\n\n").toList
    ∧ (srtCaptions demoHello 30).map Caption.num = [1, 2, 3]
    ∧ (srtCaptions demoHello 30).map (fun c => (c.startSec, c.endSec)) =
        [(0, 30), (30, 60), (60, 90)]
    ∧ (srtCaptions demoHello 30).map Caption.text =
        ["Hello world.".toList, "This is a test.".toList, "Goodbye..".toList] := by
  refine ⟨by decide, by decide, by decide, by decide⟩

theorem foldl_srtBlocks (D : Nat) :
    ∀ (l : List (Nat × List Char)) (acc : List Char),
      l.foldl
        (fun srt_content p =>
          if pyStrip p.2 = [] then srt_content
          else srt_content ++ srtBlock D p.1 p.2) acc
        = acc ++ ((l.filterMap (capOf D)).map renderCaption).flatten := by
  intro l
  induction l with
  | nil => intro acc; simp
  | cons p rest ih =>
    intro acc
    by_cases h : pyStrip p.2 = []
    · simp only [List.foldl_cons, List.filterMap_cons, capOf, if_pos h]
      exact ih acc
    · simp only [List.foldl_cons, List.filterMap_cons, capOf]
      rw [if_neg h, if_neg h, ih, srtBlock_eq_render, List.map_cons, List.flatten_cons,
        List.append_assoc]

/-- C10: `create_srt_content` is exactly the rendering, in order, of the
captions computed from the enumerated `". "`-split of the transcript:
a fragment blank after stripping emits nothing but still consumes its
index, the fragment at index `i` that survives carries number `i+1`,
range `[i*D, (i+1)*D]`, and its stripped text with one period appended.
On the transcript `"a. . b"` (whose split has a blank middle fragment)
the emitted numbers are the non-consecutive `[1, 3]` and the ranges the
non-contiguous `[(0,30), (60,90)]`. -/
theorem C10_spec :
    (∀ (t : List Char) (D : Nat),
        create_srt_content t D = ((srtCaptions t D).map renderCaption).flatten)
    ∧ (srtCaptions demoBlank 30).map Caption.num = [1, 3]
    ∧ (srtCaptions demoBlank 30).map (fun c => (c.startSec, c.endSec)) = [(0, 30), (60, 90)]
    ∧ (srtCaptions demoBlank 30).map Caption.text = ["a.".toList, "b.".toList] := by
  refine ⟨?_, by decide, by decide, by decide⟩
  intro t D
  simpa [create_srt_content, srtCaptions] using
    foldl_srtBlocks D ((splitDotSpace t).enum) []

/-- Python `" ".join(parts)` (app.py line 182). -/
def joinSpace : List (List Char) → List Char
  | [] => []
  | [p] => p
  | p :: q :: rest => p ++ ' ' :: joinSpace (q :: rest)

/-- The accumulation loop of app.py lines 168-175 restricted to its
data flow: each segment text is stripped and appended to the parts
list when non-empty (Python truthiness of the stripped string). -/
def collectParts : List (List Char) → List (List Char)
  | [] => []
  | t :: ts => if pyStrip t = [] then collectParts ts else pyStrip t :: collectParts ts

/-- The Transcript Assembler of app.py lines 165-182: collect the
stripped non-empty segment texts in order and join them with a
single ASCII space. -/
def assembleTranscript (texts : List (List Char)) : List Char :=
  joinSpace (collectParts texts)

/-- Does the string contain two consecutive ASCII spaces? -/
def hasTwoSpaces : List Char → Bool
  | c1 :: c2 :: rest => (c1 == ' ' && c2 == ' ') || hasTwoSpaces (c2 :: rest)
  | _ => false

/-- Is the first character an ASCII space? -/
def headIsSpace (l : List Char) : Bool :=
  match l with
  | c :: _ => c == ' '
  | [] => false

/-- Is the last character an ASCII space? -/
def lastIsSpace (l : List Char) : Bool :=
  match l.getLast? with
  | some c => c == ' '
  | none => false

/-- A well-formed transcript part: non-empty, and neither its first nor
its last character is whitespace. -/
def goodPart (p : List Char) : Prop :=
  p ≠ [] ∧ (∀ c, p.head? = some c → c.isWhitespace = false)
    ∧ (∀ c, p.getLast? = some c → c.isWhitespace = false)

theorem dropWS_head : ∀ {l : List Char} {c : Char} {cs : List Char},
    dropWS l = c :: cs → c.isWhitespace = false := by
  intro l
  induction l with
  | nil => intro c cs h; simp [dropWS] at h
  | cons a t ih =>
    intro c cs h
    by_cases ha : a.isWhitespace
    · rw [dropWS, if_pos ha] at h; exact ih h
    · rw [dropWS, if_neg ha] at h
      cases h
      simpa using ha

theorem dropWS_suffix : ∀ l : List Char, ∃ k, l = k ++ dropWS l := by
  intro l
  induction l with
  | nil => exact ⟨[], rfl⟩
  | cons a t ih =>
    by_cases ha : a.isWhitespace
    · obtain ⟨k, hk⟩ := ih
      exact ⟨a :: k, by rw [dropWS, if_pos ha, List.cons_append, ← hk]⟩
    · exact ⟨[], by rw [dropWS, if_neg ha, List.nil_append]⟩

theorem getLast?_dropWS {l : List Char} (h : dropWS l ≠ []) :
    (dropWS l).getLast? = l.getLast? := by
  obtain ⟨k, hk⟩ := dropWS_suffix l
  conv_rhs => rw [hk]
  exact (List.getLast?_append_of_ne_nil k h).symm

theorem pyStrip_last {l : List Char} {c : Char}
    (h : (pyStrip l).getLast? = some c) : c.isWhitespace = false := by
  unfold pyStrip at h
  rw [List.getLast?_reverse] at h
  rcases hd : dropWS (dropWS l).reverse with _ | ⟨a, t⟩
  · rw [hd] at h; simp at h
  · rw [hd] at h
    simp only [List.head?_cons, Option.some_inj] at h
    exact h ▸ dropWS_head hd

theorem pyStrip_head {l : List Char} {c : Char}
    (h : (pyStrip l).head? = some c) : c.isWhitespace = false := by
  unfold pyStrip at h
  rw [List.head?_reverse] at h
  have hne : dropWS (dropWS l).reverse ≠ [] := by
    intro hz; rw [hz] at h; simp at h
  rw [getLast?_dropWS hne, List.getLast?_reverse] at h
  rcases hd : dropWS l with _ | ⟨a, t⟩
  · rw [hd] at h; simp at h
  · rw [hd] at h
    simp only [List.head?_cons, Option.some_inj] at h
    exact h ▸ dropWS_head hd

theorem collectParts_good : ∀ (ts : List (List Char)), ∀ p ∈ collectParts ts, goodPart p := by
  intro ts
  induction ts with
  | nil => intro p hp; simp [collectParts] at hp
  | cons t rest ih =>
    intro p hp
    rw [collectParts] at hp
    by_cases h : pyStrip t = []
    · rw [if_pos h] at hp; exact ih p hp
    · rw [if_neg h] at hp
      rcases List.mem_cons.mp hp with h1 | h1
      · subst h1
        exact ⟨h, fun c hc => pyStrip_head hc, fun c hc => pyStrip_last hc⟩
      · exact ih p h1

theorem collectParts_mem : ∀ (ts : List (List Char)), ∀ p ∈ collectParts ts,
    ∃ t ∈ ts, p = pyStrip t := by
  intro ts
  induction ts with
  | nil => intro p hp; simp [collectParts] at hp
  | cons t rest ih =>
    intro p hp
    rw [collectParts] at hp
    by_cases h : pyStrip t = []
    · rw [if_pos h] at hp
      obtain ⟨u, hu, he⟩ := ih p hp
      exact ⟨u, List.mem_cons_of_mem _ hu, he⟩
    · rw [if_neg h] at hp
      rcases List.mem_cons.mp hp with h1 | h1
      · exact ⟨t, List.mem_cons_self _ _, h1⟩
      · obtain ⟨u, hu, he⟩ := ih p h1
        exact ⟨u, List.mem_cons_of_mem _ hu, he⟩

theorem collectParts_eq : ∀ ts : List (List Char),
    collectParts ts = (ts.map pyStrip).filter (fun p => !p.isEmpty) := by
  intro ts
  induction ts with
  | nil => rfl
  | cons t rest ih =>
    rw [collectParts, List.map_cons, List.filter_cons]
    by_cases h : pyStrip t = []
    · rw [if_pos h, ih, h]
      simp
    · rw [if_neg h, ih]
      have : (!(pyStrip t).isEmpty) = true := by
        simpa using h
      rw [if_pos this]

theorem joinSpace_ne_nil {p : List Char} (hp : p ≠ []) :
    ∀ ps, joinSpace (p :: ps) ≠ [] := by
  intro ps
  cases ps with
  | nil => exact hp
  | cons q rest =>
    rw [joinSpace]
    rcases p with _ | ⟨a, t⟩
    · simp
    · simp

theorem joinSpace_head : ∀ (parts : List (List Char)),
    (∀ p ∈ parts, goodPart p) →
    ∀ c, (joinSpace parts).head? = some c → c.isWhitespace = false := by
  intro parts
  induction parts with
  | nil => intro _ c hc; simp [joinSpace] at hc
  | cons p rest ih =>
    intro hg c hc
    have hp : goodPart p := hg p (List.mem_cons_self _ _)
    cases rest with
    | nil => exact hp.2.1 c hc
    | cons q r =>
      rw [joinSpace] at hc
      rw [List.head?_append_of_ne_nil p hp.1] at hc
      exact hp.2.1 c hc

theorem joinSpace_last : ∀ (parts : List (List Char)),
    (∀ p ∈ parts, goodPart p) →
    ∀ c, (joinSpace parts).getLast? = some c → c.isWhitespace = false := by
  intro parts
  induction parts with
  | nil => intro _ c hc; simp [joinSpace] at hc
  | cons p rest ih =>
    intro hg c hc
    have hp : goodPart p := hg p (List.mem_cons_self _ _)
    cases rest with
    | nil => exact hp.2.2 c hc
    | cons q r =>
      have hg2 : ∀ x ∈ q :: r, goodPart x := fun x hx => hg x (List.mem_cons_of_mem _ hx)
      have hq : goodPart q := hg2 q (List.mem_cons_self _ _)
      rw [joinSpace, List.getLast?_append_of_ne_nil p (by simp)] at hc
      have hne : joinSpace (q :: r) ≠ [] := joinSpace_ne_nil hq.1 r
      have : (' ' :: joinSpace (q :: r)).getLast? = (joinSpace (q :: r)).getLast? := by
        have h1 : ' ' :: joinSpace (q :: r) = [' '] ++ joinSpace (q :: r) := rfl
        rw [h1, List.getLast?_append_of_ne_nil _ hne]
      rw [this] at hc
      exact ih hg2 c hc

theorem hasTwoSpaces_cons (a : Char) (l : List Char) :
    hasTwoSpaces (a :: l) = ((a == ' ') && headIsSpace l || hasTwoSpaces l) := by
  cases l with
  | nil => simp [hasTwoSpaces, headIsSpace]
  | cons b t => rw [hasTwoSpaces, headIsSpace]

theorem lastIsSpace_cons_cons (a b : Char) (t : List Char) :
    lastIsSpace (a :: b :: t) = lastIsSpace (b :: t) := by
  rw [lastIsSpace, lastIsSpace, List.getLast?_cons_cons]

theorem hasTwoSpaces_append : ∀ (xs ys : List Char),
    hasTwoSpaces (xs ++ ys)
      = (hasTwoSpaces xs || (lastIsSpace xs && headIsSpace ys) || hasTwoSpaces ys) := by
  intro xs ys
  induction xs with
  | nil => simp [hasTwoSpaces, lastIsSpace]
  | cons a t ih =>
    rw [List.cons_append, hasTwoSpaces_cons, ih, hasTwoSpaces_cons]
    cases t with
    | nil =>
      have h2 : lastIsSpace [a] = (a == ' ') := rfl
      rw [h2]
      simp only [List.nil_append]
      cases a == ' ' <;> cases headIsSpace ys <;> cases hasTwoSpaces ys <;>
        simp [hasTwoSpaces, lastIsSpace, show headIsSpace [] = false from rfl]
    | cons b r =>
      rw [lastIsSpace_cons_cons]
      have hh : headIsSpace (b :: r ++ ys) = headIsSpace (b :: r) := rfl
      rw [hh]
      cases a == ' ' <;> cases headIsSpace (b :: r) <;>
        cases hasTwoSpaces (b :: r) <;> cases lastIsSpace (b :: r) <;>
        cases headIsSpace ys <;> cases hasTwoSpaces ys <;> rfl

theorem goodPart_head_not_space {p : List Char} (hp : goodPart p) :
    headIsSpace p = false := by
  rcases p with _ | ⟨a, t⟩
  · rfl
  · have : a.isWhitespace = false := hp.2.1 a rfl
    rw [headIsSpace]
    by_cases h : a = ' '
    · subst h; simp at this
    · simpa using h

theorem goodPart_last_not_space {p : List Char} (hp : goodPart p) :
    lastIsSpace p = false := by
  rcases hl : p.getLast? with _ | c
  · rw [lastIsSpace, hl]
  · have : c.isWhitespace = false := hp.2.2 c hl
    rw [lastIsSpace, hl]
    by_cases h : c = ' '
    · subst h; simp at this
    · simpa using h

theorem joinSpace_head_not_space {parts : List (List Char)}
    (hg : ∀ p ∈ parts, goodPart p) : headIsSpace (joinSpace parts) = false := by
  rcases hj : joinSpace parts with _ | ⟨a, t⟩
  · rfl
  · have : a.isWhitespace = false := joinSpace_head parts hg a (by rw [hj]; rfl)
    rw [headIsSpace]
    by_cases h : a = ' '
    · subst h; simp at this
    · simpa using h

theorem joinSpace_noTwoSpaces : ∀ (parts : List (List Char)),
    (∀ p ∈ parts, goodPart p) → (∀ p ∈ parts, hasTwoSpaces p = false) →
    hasTwoSpaces (joinSpace parts) = false := by
  intro parts
  induction parts with
  | nil => intro _ _; rfl
  | cons p rest ih =>
    intro hg hs
    have hp : goodPart p := hg p (List.mem_cons_self _ _)
    cases rest with
    | nil => exact hs p (List.mem_cons_self _ _)
    | cons q r =>
      have hg2 : ∀ x ∈ q :: r, goodPart x := fun x hx => hg x (List.mem_cons_of_mem _ hx)
      have hs2 : ∀ x ∈ q :: r, hasTwoSpaces x = false :=
        fun x hx => hs x (List.mem_cons_of_mem _ hx)
      rw [joinSpace, hasTwoSpaces_append, hasTwoSpaces_cons,
        hs p (List.mem_cons_self _ _), goodPart_last_not_space hp,
        joinSpace_head_not_space hg2, ih hg2 hs2]
      rfl

/-- C2 (counterexample): a segment text with an internal double space
survives stripping, so the assembled transcript `"a  b"` contains
two consecutive spaces, refuting the claim for arbitrary segment
strings. -/
theorem C2_counterexample :
    assembleTranscript ["a  b".toList] = "a  b".toList
    ∧ hasTwoSpaces (assembleTranscript ["a  b".toList]) = true :=
  ⟨by decide, by decide⟩

/-- C2 (amended): the assembled transcript is the in-order join, with a
single ASCII space, of the stripped non-empty entries, and it never
has a leading or trailing space (its first and last characters are
never whitespace); it contains no two consecutive spaces provided no
stripped entry itself contains two consecutive spaces (an entry with
an internal double space carries it into the result). -/
theorem C2_amended (texts : List (List Char)) :
    assembleTranscript texts = joinSpace ((texts.map pyStrip).filter (fun p => !p.isEmpty))
    ∧ (∀ c, (assembleTranscript texts).head? = some c → c.isWhitespace = false)
    ∧ (∀ c, (assembleTranscript texts).getLast? = some c → c.isWhitespace = false)
    ∧ ((∀ t ∈ texts, hasTwoSpaces (pyStrip t) = false) →
        hasTwoSpaces (assembleTranscript texts) = false) := by
  refine ⟨by rw [assembleTranscript, collectParts_eq], ?_, ?_, ?_⟩
  · exact joinSpace_head _ (collectParts_good texts)
  · exact joinSpace_last _ (collectParts_good texts)
  · intro h
    refine joinSpace_noTwoSpaces _ (collectParts_good texts) ?_
    intro p hp
    obtain ⟨t, ht, he⟩ := collectParts_mem texts p hp
    exact he ▸ h t ht

theorem C2_witness :
    ('h'.isWhitespace = false)
    ∧ hasTwoSpaces (assembleTranscript ["hello".toList, " ".toList, "wor ld".toList]) = false :=
  ⟨(C2_amended ["hello".toList, " ".toList, "wor ld".toList]).2.1 'h' (by decide),
   (C2_amended ["hello".toList, " ".toList, "wor ld".toList]).2.2.2 (by decide)⟩

/-- Python `transcript.split()` with no argument: scan the string,
skipping whitespace and collecting maximal non-whitespace runs (the
accumulator holds the current run reversed). -/
def pySplitAux : List Char → List Char → List (List Char)
  | [], cur => if cur = [] then [] else [cur.reverse]
  | c :: cs, cur =>
    if c.isWhitespace then
      if cur = [] then pySplitAux cs [] else cur.reverse :: pySplitAux cs []
    else pySplitAux cs (c :: cur)

/-- Python `transcript.split()`. -/
def pySplit (l : List Char) : List (List Char) := pySplitAux l []

/-- app.py line 376: `word_count = len(transcript.split())`. -/
def word_count (transcript : List Char) : Nat := (pySplit transcript).length

/-- app.py line 377: `char_count = len(transcript)`. -/
def char_count (transcript : List Char) : Nat := transcript.length

/-- Modelled from the spec: "the number of whitespace-delimited tokens"
counted directly, as the number of maximal non-whitespace runs: a
non-whitespace character starts a new token exactly when no run is
open (`inRun = false`). -/
def runsCount : List Char → Bool → Nat
  | [], _ => 0
  | c :: cs, inRun =>
    if c.isWhitespace then runsCount cs false
    else (if inRun then 0 else 1) + runsCount cs true

theorem pySplitAux_length : ∀ (l : List Char) (cur : List Char),
    (pySplitAux l cur).length
      = runsCount l (!cur.isEmpty) + (if cur = [] then 0 else 1) := by
  intro l
  induction l with
  | nil =>
    intro cur
    cases cur with
    | nil => rfl
    | cons a t => rfl
  | cons c cs ih =>
    intro cur
    by_cases hc : c.isWhitespace
    · cases cur with
      | nil =>
        rw [pySplitAux, if_pos hc, if_pos rfl, runsCount, if_pos hc]
        simpa using ih []
      | cons a t =>
        rw [pySplitAux, if_pos hc, if_neg (List.cons_ne_nil a t), runsCount, if_pos hc,
          List.length_cons, ih []]
        simp [Nat.add_comm]
    · rw [pySplitAux, if_neg hc, ih (c :: cur), runsCount, if_neg hc]
      cases cur with
      | nil => simp [Nat.add_comm]
      | cons a t => simp [if_neg (List.cons_ne_nil a t), Nat.add_comm]

/-- C8: the displayed word count is `len(transcript.split())`, which
equals the number of whitespace-delimited tokens (maximal
non-whitespace runs) of the transcript, and the displayed character
count is the transcript's full length, internal spaces included. -/
theorem C8_spec (transcript : List Char) :
    word_count transcript = runsCount transcript false
    ∧ char_count transcript = transcript.length := by
  constructor
  · have h := pySplitAux_length transcript []
    simpa [word_count, pySplit] using h
  · rfl

/-- Python `range(0, stop, step)` for a positive step: the multiples of
`step` below `stop`, in increasing order. -/
def pyRange (stop step : Nat) : List Nat :=
  (List.range stop).filter (fun i => i % step == 0)

/-- The fixed-length fallback of app.py lines 106 and 108:
`[audio[i:i+L] for i in range(0, len(audio), L)]`, where slicing
`audio[i:i+L]` keeps the elements from index `i` up to (excluding)
`i+L`, clipped at the end of the list. -/
def fixedSlices (audio : List Int) (L : Nat) : List (List Int) :=
  (pyRange audio.length L).map (fun i => (audio.drop i).take L)

/-- The function `split_audio_into_chunks` (app.py lines 92-113) after the waveform
has been loaded.  The external `split_on_silence` call is modelled by
its outcome `silres`: either the segment list it returned or the
error it raised.  If it returned at most one segment, or raised, the
fixed-length slicing fallback is used. -/
def split_audio_into_chunks (audio : List Int) (chunk_length_ms : Nat)
    (silres : Except (List Char) (List (List Int))) : List (List Int) :=
  match silres with
  | Except.ok chunks =>
    if chunks.length ≤ 1 then fixedSlices audio chunk_length_ms else chunks
  | Except.error _ => fixedSlices audio chunk_length_ms

/-- Did `split_on_silence` degenerate (≤ 1 segment) or raise? -/
def fallbackTriggered (silres : Except (List Char) (List (List Int))) : Bool :=
  match silres with
  | Except.ok chunks => decide (chunks.length ≤ 1)
  | Except.error _ => true

/-- Outcome of one round trip to the remote recognition service for one
segment, as distinguished by the handlers of app.py lines 130-137. -/
inductive RecognitionOutcome where
  | success : List Char → RecognitionOutcome
  | unknownValue : RecognitionOutcome
  | requestError : List Char → RecognitionOutcome
  | otherError : List Char → RecognitionOutcome

/-- The function `transcribe_audio_chunk` (app.py lines 115-137) as a function of the
service outcome for the segment: the recognized text on success and
the empty string on every handled exception.  Totality of this
definition is the model of "never propagates an exception": each
constructor of `RecognitionOutcome` is covered. -/
def transcribe_audio_chunk (o : RecognitionOutcome) : List Char :=
  match o with
  | RecognitionOutcome.success t => t
  | RecognitionOutcome.unknownValue => []
  | RecognitionOutcome.requestError _ => []
  | RecognitionOutcome.otherError _ => []

/-- Does `transcribe_audio_chunk` emit a `st.warning` for this outcome?
`UnknownValueError` (no speech) returns silently; `RequestError`
(service level) and any other exception warn (app.py lines 130-137). -/
def chunkWarned (o : RecognitionOutcome) : Bool :=
  match o with
  | RecognitionOutcome.success _ => false
  | RecognitionOutcome.unknownValue => false
  | RecognitionOutcome.requestError _ => true
  | RecognitionOutcome.otherError _ => true

/-- The per-segment loop of app.py lines 168-177: transcribe every
segment in order, appending the stripped text when non-empty. -/
def transcribeLoop (recognize : List Int → RecognitionOutcome) :
    List (List Int) → List (List Char)
  | [] => []
  | chunk :: rest =>
    if pyStrip (transcribe_audio_chunk (recognize chunk)) = []
    then transcribeLoop recognize rest
    else pyStrip (transcribe_audio_chunk (recognize chunk)) :: transcribeLoop recognize rest

/-- The function `transcribe_video` (app.py lines 139-198) with its external effects
modelled as inputs: `extractOk` is whether `extract_audio_from_video`
succeeded, `silres` the silence-splitting outcome, and `recognize`
the service outcome per segment.  Temp-file bookkeeping, progress
callbacks and the pacing sleep carry no data and are omitted. -/
def transcribe_video (extractOk : Bool) (audio : List Int) (chunk_duration : Nat)
    (silres : Except (List Char) (List (List Int)))
    (recognize : List Int → RecognitionOutcome) : Option (List Char) :=
  if extractOk = false then none
  else
    let chunk_length_ms := chunk_duration * 1000
    let audio_chunks := split_audio_into_chunks audio chunk_length_ms silres
    if audio_chunks = [] then none
    else
      let transcript_parts := transcribeLoop recognize audio_chunks
      let full_transcript := joinSpace transcript_parts
      if pyStrip full_transcript = [] then none else some full_transcript

/-- The UI result check of app.py lines 346 and 389: the "no text found"
error is shown exactly when the returned transcript is falsy
(`None` or the empty string). -/
def showsNoTextError (r : Option (List Char)) : Bool :=
  match r with
  | none => true
  | some t => t.isEmpty

/-- C7: per-segment recognition never aborts the pipeline: the "no
speech" outcome yields the empty string with no warning, service
errors and unexpected errors yield the empty string after a warning
(all modelled totally, so no exception escapes), and the loop over
segments always continues: the result for `c :: cs` extends the
result for `cs`, whatever `c`'s outcome was. -/
theorem C7_spec :
    transcribe_audio_chunk RecognitionOutcome.unknownValue = []
    ∧ chunkWarned RecognitionOutcome.unknownValue = false
    ∧ (∀ m, transcribe_audio_chunk (RecognitionOutcome.requestError m) = []
        ∧ chunkWarned (RecognitionOutcome.requestError m) = true)
    ∧ (∀ m, transcribe_audio_chunk (RecognitionOutcome.otherError m) = []
        ∧ chunkWarned (RecognitionOutcome.otherError m) = true)
    ∧ (∀ (recognize : List Int → RecognitionOutcome) (c : List Int) (cs : List (List Int)),
        ∃ pre, transcribeLoop recognize (c :: cs) = pre ++ transcribeLoop recognize cs) := by
  refine ⟨rfl, rfl, fun m => ⟨rfl, rfl⟩, fun m => ⟨rfl, rfl⟩, ?_⟩
  intro recognize c cs
  by_cases h : pyStrip (transcribe_audio_chunk (recognize c)) = []
  · exact ⟨[], by rw [transcribeLoop, if_pos h, List.nil_append]⟩
  · exact ⟨[pyStrip (transcribe_audio_chunk (recognize c))],
      by rw [transcribeLoop, if_neg h, List.singleton_append]⟩

theorem transcribeLoop_nil_of_empty (recognize : List Int → RecognitionOutcome) :
    ∀ chunks : List (List Int),
    (∀ c ∈ chunks, pyStrip (transcribe_audio_chunk (recognize c)) = []) →
    transcribeLoop recognize chunks = [] := by
  intro chunks
  induction chunks with
  | nil => intro _; rfl
  | cons c rest ih =>
    intro h
    rw [transcribeLoop, if_pos (h c (List.mem_cons_self _ _))]
    exact ih fun x hx => h x (List.mem_cons_of_mem _ hx)

/-- C4: when every segment transcription strips to the empty string,
`transcribe_video` returns `None` (never an empty-string
transcript), and the UI therefore reports the "no text found"
failure. -/
theorem C4_spec (extractOk : Bool) (audio : List Int) (chunk_duration : Nat)
    (silres : Except (List Char) (List (List Int)))
    (recognize : List Int → RecognitionOutcome)
    (h : ∀ c ∈ split_audio_into_chunks audio (chunk_duration * 1000) silres,
        pyStrip (transcribe_audio_chunk (recognize c)) = []) :
    transcribe_video extractOk audio chunk_duration silres recognize = none
    ∧ showsNoTextError (transcribe_video extractOk audio chunk_duration silres recognize)
        = true := by
  have hmain : transcribe_video extractOk audio chunk_duration silres recognize = none := by
    rw [transcribe_video]
    cases extractOk with
    | false => rw [if_pos rfl]
    | true =>
      rw [if_neg (by simp)]
      by_cases hc : split_audio_into_chunks audio (chunk_duration * 1000) silres = []
      · simp only [hc, ite_true, if_pos rfl]
      · simp only [if_neg hc]
        rw [transcribeLoop_nil_of_empty recognize _ h]
        rw [if_pos (show pyStrip (joinSpace []) = [] from rfl)]
  exact ⟨hmain, by rw [hmain]; rfl⟩

theorem C4_witness :
    transcribe_video true [1, 2] 1 (Except.ok []) (fun _ => RecognitionOutcome.unknownValue)
      = none :=
  (C4_spec true [1, 2] 1 (Except.ok [])
    (fun _ => RecognitionOutcome.unknownValue) (by decide)).1

/-- app.py line 31: `MAX_FILE_SIZE = 200 * 1024 * 1024` (200 MiB). -/
def MAX_FILE_SIZE : Nat := 200 * 1024 * 1024

/-- app.py line 19: the supported video extensions, all lowercase. -/
def SUPPORTED_VIDEO_FORMATS : List (List Char) :=
  [".mp4".toList, ".avi".toList, ".mov".toList, ".mkv".toList, ".webm".toList,
   ".flv".toList, ".m4v".toList]

/-- Python `str.lower()` character-wise (Char.toLower lowers the ASCII
range, which covers file extensions). -/
def pyLower (l : List Char) : List Char := l.map Char.toLower

/-- Result of the upload validation in `main_app`: rejected for size,
rejected for extension, or the pipeline branch was entered (only
that branch calls `transcribe_video`, which is what invokes
`extract_audio_from_video`). -/
inductive UploadCheck where
  | sizeError : UploadCheck
  | extError : UploadCheck
  | started : Option (List Char) → UploadCheck
  deriving DecidableEq

/-- The validation sequence of app.py lines 315-344: lowercase the
extension `os.path.splitext` produced, reject when the byte size
exceeds `MAX_FILE_SIZE`, then reject when the lowercased extension
is not in `SUPPORTED_VIDEO_FORMATS`, and only otherwise proceed to
the transcription pipeline (whose result is the input `pipeline`). -/
def main_app_flow (file_size : Nat) (rawExt : List Char)
    (pipeline : Option (List Char)) : UploadCheck :=
  if file_size > MAX_FILE_SIZE then UploadCheck.sizeError
  else if pyLower rawExt ∉ SUPPORTED_VIDEO_FORMATS then UploadCheck.extError
  else UploadCheck.started pipeline

/-- C5: a file strictly larger than 200 MiB is rejected with the size
validation error, so the pipeline branch — the only branch that runs
`transcribe_video` and hence `extract_audio_from_video` — is never
entered, whatever the extension. -/
theorem C5_spec (file_size : Nat) (rawExt : List Char) (pipeline : Option (List Char))
    (h : MAX_FILE_SIZE < file_size) :
    main_app_flow file_size rawExt pipeline = UploadCheck.sizeError
    ∧ ∀ r, main_app_flow file_size rawExt pipeline ≠ UploadCheck.started r := by
  have hm : main_app_flow file_size rawExt pipeline = UploadCheck.sizeError := by
    rw [main_app_flow, if_pos h]
  refine ⟨hm, fun r hr => ?_⟩
  rw [hm] at hr
  exact UploadCheck.noConfusion hr

theorem C5_witness :
    main_app_flow (MAX_FILE_SIZE + 1) ".mp4".toList none = UploadCheck.sizeError :=
  (C5_spec (MAX_FILE_SIZE + 1) (".mp4".toList) none (Nat.lt_succ_self _)).1

/-- C6: a file whose lowercased extension is outside the supported set
never reaches the pipeline branch, whatever its size (an oversized
file is caught by the size check first, a well-sized one by the
extension check); conversely a supported extension in any letter
case passes validation whenever the size does. -/
theorem C6_spec :
    (∀ (file_size : Nat) (rawExt : List Char) (pipeline : Option (List Char)),
        pyLower rawExt ∉ SUPPORTED_VIDEO_FORMATS →
        ∀ r, main_app_flow file_size rawExt pipeline ≠ UploadCheck.started r)
    ∧ (∀ (file_size : Nat) (rawExt : List Char) (pipeline : Option (List Char)),
        file_size ≤ MAX_FILE_SIZE → pyLower rawExt ∈ SUPPORTED_VIDEO_FORMATS →
        main_app_flow file_size rawExt pipeline = UploadCheck.started pipeline) := by
  constructor
  · intro file_size rawExt pipeline hext r hr
    rw [main_app_flow] at hr
    by_cases hs : file_size > MAX_FILE_SIZE
    · rw [if_pos hs] at hr
      exact UploadCheck.noConfusion hr
    · rw [if_neg hs, if_pos hext] at hr
      exact UploadCheck.noConfusion hr
  · intro file_size rawExt pipeline hsize hext
    rw [main_app_flow, if_neg (Nat.not_lt.mpr hsize), if_neg (not_not.mpr hext)]

theorem C6_witness :
    main_app_flow 5 ".exe".toList none ≠ UploadCheck.started none
    ∧ main_app_flow 5 ".MP4".toList (some "hi".toList)
        = UploadCheck.started (some "hi".toList) :=
  ⟨C6_spec.1 5 (".exe".toList) none (by decide) none,
   C6_spec.2 5 (".MP4".toList) (some ("hi".toList)) (by decide) (by decide)⟩

theorem pyRange_eq (L : Nat) (hL : 0 < L) :
    ∀ n, pyRange n L = (List.range ((n + L - 1) / L)).map (· * L) := by
  intro n
  induction n with
  | zero =>
    have h0 : (0 + L - 1) / L = 0 := Nat.div_eq_of_lt (by omega)
    rw [h0]
    rfl
  | succ n ih =>
    have hsplit : pyRange (n + 1) L
        = pyRange n L ++ List.filter (fun i => i % L == 0) [n] := by
      rw [pyRange, pyRange, List.range_succ, List.filter_append]
    by_cases hr : n % L = 0
    · have hq : L * (n / L) = n := by
        have := Nat.div_add_mod n L
        omega
      have hmul : L * (n / L + 1) = L * (n / L) + L := by ring
      have hm1 : (n + L - 1) / L = n / L := by
        have h1 : n + L - 1 = L * (n / L) + (L - 1) := by omega
        rw [h1, Nat.mul_add_div hL, Nat.div_eq_of_lt (show L - 1 < L by omega), Nat.add_zero]
      have hm2 : (n + 1 + L - 1) / L = n / L + 1 := by
        have h1 : n + 1 + L - 1 = L * (n / L + 1) := by omega
        rw [h1, Nat.mul_div_cancel_left _ hL]
      have hfil : List.filter (fun i => i % L == 0) [n] = [n] := by
        simp [List.filter, hr]
      rw [hsplit, ih, hm1, hm2, hfil, List.range_succ, List.map_append]
      have hqL : n / L * L = n := by
        rw [Nat.mul_comm]
        exact hq
      simp [hqL]
    · have hdm := Nat.div_add_mod n L
      have hrL : n % L < L := Nat.mod_lt _ hL
      have hmul : L * (n / L + 1) = L * (n / L) + L := by ring
      have hm1 : (n + L - 1) / L = n / L + 1 := by
        have h1 : n + L - 1 = L * (n / L + 1) + (n % L - 1) := by omega
        rw [h1, Nat.mul_add_div hL, Nat.div_eq_of_lt (show n % L - 1 < L by omega),
          Nat.add_zero]
      have hm2 : (n + 1 + L - 1) / L = n / L + 1 := by
        have h1 : n + 1 + L - 1 = L * (n / L + 1) + n % L := by omega
        rw [h1, Nat.mul_add_div hL, Nat.div_eq_of_lt hrL, Nat.add_zero]
      have hb : (n % L == 0) = false := by
        simp [hr]
      have hfil : List.filter (fun i => i % L == 0) [n] = [] := by
        simp [List.filter, hb]
      rw [hsplit, ih, hm1, hm2, hfil, List.append_nil]

theorem fixedSlices_eq (audio : List Int) (L : Nat) (hL : 0 < L) :
    fixedSlices audio L
      = (List.range ((audio.length + L - 1) / L)).map
          (fun k => (audio.drop (k * L)).take L) := by
  rw [fixedSlices, pyRange_eq L hL, List.map_map]
  rfl

theorem fixedSlices_length (audio : List Int) (L : Nat) (hL : 0 < L) :
    (fixedSlices audio L).length = (audio.length + L - 1) / L := by
  rw [fixedSlices_eq audio L hL, List.length_map, List.length_range]

theorem fixedSlices_get? (audio : List Int) (L : Nat) (hL : 0 < L) (i : Nat)
    (hi : i < (fixedSlices audio L).length) :
    (fixedSlices audio L).get? i = some ((audio.drop (i * L)).take L) := by
  rw [fixedSlices_length audio L hL] at hi
  rw [fixedSlices_eq audio L hL, List.get?_map, List.get?_range hi]
  rfl

theorem fixedSlices_step (audio : List Int) (L : Nat) (hL : 0 < L) (ha : audio ≠ []) :
    fixedSlices audio L = audio.take L :: fixedSlices (audio.drop L) L := by
  have hn : 0 < audio.length := List.length_pos.mpr ha
  have hmm : (audio.length + L - 1) / L = ((audio.drop L).length + L - 1) / L + 1 := by
    rw [List.length_drop]
    rcases le_or_lt audio.length L with hc | hc
    · have h1 : audio.length + L - 1 = (audio.length - 1) + L := by omega
      have h2 : audio.length - L = 0 := by omega
      rw [h1, h2, Nat.add_div_right _ hL, Nat.div_eq_of_lt (by omega),
        Nat.div_eq_of_lt (by omega)]
    · have h1 : audio.length + L - 1 = (audio.length - L + L - 1) + L := by omega
      rw [h1, Nat.add_div_right _ hL]
  have hfun : ((fun k => (audio.drop (k * L)).take L) ∘ Nat.succ)
      = (fun k => (((audio.drop L).drop (k * L)).take L)) := by
    funext k
    show (audio.drop (Nat.succ k * L)).take L = ((audio.drop L).drop (k * L)).take L
    rw [List.drop_drop, Nat.succ_mul, Nat.add_comm (k * L) L]
  rw [fixedSlices_eq audio L hL, fixedSlices_eq (audio.drop L) L hL, hmm,
    List.range_succ_eq_map, List.map_cons, List.map_map, hfun, Nat.zero_mul, List.drop_zero]

theorem fixedSlices_flatten_aux (L : Nat) (hL : 0 < L) :
    ∀ (n : Nat) (audio : List Int), audio.length ≤ n →
      (fixedSlices audio L).flatten = audio := by
  intro n
  induction n with
  | zero =>
    intro audio h
    have hz : audio = [] := List.eq_nil_of_length_eq_zero (Nat.le_zero.mp h)
    subst hz
    rfl
  | succ n ih =>
    intro audio h
    by_cases ha : audio = []
    · subst ha; rfl
    · have hn : 0 < audio.length := List.length_pos.mpr ha
      rw [fixedSlices_step audio L hL ha, List.flatten_cons,
        ih (audio.drop L) (by rw [List.length_drop]; omega), List.take_append_drop]

theorem dropLast_map_eq {α β : Type} (f : α → β) :
    ∀ l : List α, (l.map f).dropLast = l.dropLast.map f := by
  intro l
  induction l with
  | nil => rfl
  | cons a t ih =>
    cases t with
    | nil => rfl
    | cons b r =>
      rw [List.map_cons, List.map_cons, List.dropLast_cons₂, ← List.map_cons f b r, ih,
        List.dropLast_cons₂, List.map_cons]

theorem fixedSlices_dropLast_length (audio : List Int) (L : Nat) (hL : 0 < L) :
    ∀ s ∈ (fixedSlices audio L).dropLast, s.length = L := by
  intro s hs
  rw [fixedSlices_eq audio L hL, dropLast_map_eq] at hs
  have hdrop : (List.range ((audio.length + L - 1) / L)).dropLast
      = List.range ((audio.length + L - 1) / L - 1) := by
    rcases hm : (audio.length + L - 1) / L with _ | k
    · rfl
    · rw [List.range_succ, List.dropLast_concat, Nat.succ_sub_one]
  rw [hdrop] at hs
  obtain ⟨j, hj, hsj⟩ := List.mem_map.mp hs
  rw [List.mem_range] at hj
  have hj2 : j + 2 ≤ (audio.length + L - 1) / L := by omega
  have hle : (j + 2) * L ≤ audio.length + L - 1 := (Nat.le_div_iff_mul_le hL).mp hj2
  have hexp : (j + 2) * L = j * L + 2 * L := by ring
  rw [← hsj, List.length_take, List.length_drop]
  omega

theorem fixedSlices_getLast (audio : List Int) (L : Nat) (hL : 0 < L) (s : List Int)
    (hs : (fixedSlices audio L).getLast? = some s) :
    s.length ≤ L ∧ (s.length < L ↔ ¬ audio.length % L = 0) := by
  by_cases ha : audio = []
  · rw [ha, show fixedSlices [] L = [] from rfl] at hs
    simp at hs
  · have hn : 0 < audio.length := List.length_pos.mpr ha
    have hdm := Nat.div_add_mod (audio.length - 1) L
    have hrL : (audio.length - 1) % L < L := Nat.mod_lt _ hL
    have hm : (audio.length + L - 1) / L = (audio.length - 1) / L + 1 := by
      have h1 : audio.length + L - 1 = (audio.length - 1) + L := by omega
      rw [h1, Nat.add_div_right _ hL]
    have hlast : (fixedSlices audio L).getLast?
        = some ((audio.drop ((audio.length - 1) / L * L)).take L) := by
      rw [fixedSlices_eq audio L hL, hm, List.range_succ, List.map_append]
      rw [List.getLast?_append_of_ne_nil _ (by simp)]
      rfl
    rw [hlast] at hs
    have hs2 := Option.some.inj hs
    subst hs2
    have hcomm : (audio.length - 1) / L * L = L * ((audio.length - 1) / L) :=
      Nat.mul_comm _ _
    have hlen : ((audio.drop ((audio.length - 1) / L * L)).take L).length
        = (audio.length - 1) % L + 1 := by
      rw [List.length_take, List.length_drop]
      omega
    rw [hlen]
    have hnmod : audio.length % L = ((audio.length - 1) % L + 1) % L := by
      have h2 : audio.length = L * ((audio.length - 1) / L) + ((audio.length - 1) % L + 1) := by
        omega
      conv_lhs => rw [h2]
      rw [Nat.mul_add_mod]
    by_cases hcase : (audio.length - 1) % L + 1 = L
    · rw [hnmod, hcase, Nat.mod_self]
      simp
    · have hlt : (audio.length - 1) % L + 1 < L := by omega
      rw [hnmod, Nat.mod_eq_of_lt hlt]
      constructor
      · omega
      · constructor
        · intro _; omega
        · intro _; omega

theorem transcribe_video_empty_audio (chunk_duration : Nat)
    (silres : Except (List Char) (List (List Int)))
    (recognize : List Int → RecognitionOutcome)
    (hf : fallbackTriggered silres = true) :
    transcribe_video true [] chunk_duration silres recognize = none := by
  have hchunks : split_audio_into_chunks [] (chunk_duration * 1000) silres = [] := by
    cases silres with
    | error e => rfl
    | ok chunks =>
      show (if chunks.length ≤ 1 then fixedSlices [] (chunk_duration * 1000) else chunks) = []
      rw [if_pos (of_decide_eq_true hf)]
      rfl
  simp [transcribe_video, hchunks]

/-- C3: whenever the silence-splitting outcome is an error or at most
one segment, `split_audio_into_chunks` returns the fixed-length
slices; every slice before the last has exactly the configured
length `L`, and the final slice is at most `L` long and strictly
shorter exactly when the total length is not a multiple of `L`. -/
theorem C3_spec (audio : List Int) (L : Nat) (silres : Except (List Char) (List (List Int)))
    (hL : 0 < L) (hf : fallbackTriggered silres = true) :
    split_audio_into_chunks audio L silres = fixedSlices audio L
    ∧ (∀ s ∈ (split_audio_into_chunks audio L silres).dropLast, s.length = L)
    ∧ (∀ s, (split_audio_into_chunks audio L silres).getLast? = some s →
        s.length ≤ L ∧ (s.length < L ↔ ¬ audio.length % L = 0)) := by
  have heq : split_audio_into_chunks audio L silres = fixedSlices audio L := by
    cases silres with
    | error e => rfl
    | ok chunks =>
      show (if chunks.length ≤ 1 then fixedSlices audio L else chunks) = fixedSlices audio L
      rw [if_pos (of_decide_eq_true hf)]
  refine ⟨heq, ?_, ?_⟩
  · rw [heq]
    exact fixedSlices_dropLast_length audio L hL
  · rw [heq]
    intro s hs
    exact fixedSlices_getLast audio L hL s hs

theorem C3_witness :
    split_audio_into_chunks [1, 2, 3, 4, 5, 6, 7] 3 (Except.error [])
      = fixedSlices [1, 2, 3, 4, 5, 6, 7] 3
    ∧ ([7] : List Int).length ≤ 3
    ∧ (([7] : List Int).length < 3 ↔ ¬ ([1, 2, 3, 4, 5, 6, 7] : List Int).length % 3 = 0) :=
  ⟨(C3_spec [1, 2, 3, 4, 5, 6, 7] 3 (Except.error []) (by decide) (by decide)).1,
   (C3_spec [1, 2, 3, 4, 5, 6, 7] 3 (Except.error []) (by decide) (by decide)).2.2
     [7] (by decide)⟩

/-- C9: for positive slice length `L` the fixed-length fallback yields
exactly `⌈n/L⌉ = (n + L - 1) / L` slices, slice `i` being
`audio[i*L : i*L+L]` (the half-open range `[i*L, min((i+1)*L, n))`),
so concatenating the slices in order rebuilds the waveform exactly;
an empty waveform yields no slices, upon which `transcribe_video`
returns `None` (pipeline failure). -/
theorem C9_spec (audio : List Int) (L : Nat) (hL : 0 < L) :
    (fixedSlices audio L).length = (audio.length + L - 1) / L
    ∧ (∀ i, i < (fixedSlices audio L).length →
        (fixedSlices audio L).get? i = some ((audio.drop (i * L)).take L))
    ∧ (fixedSlices audio L).flatten = audio
    ∧ fixedSlices [] L = []
    ∧ (∀ (chunk_duration : Nat) (silres : Except (List Char) (List (List Int)))
        (recognize : List Int → RecognitionOutcome),
        fallbackTriggered silres = true →
        transcribe_video true [] chunk_duration silres recognize = none) :=
  ⟨fixedSlices_length audio L hL,
   fun i hi => fixedSlices_get? audio L hL i hi,
   fixedSlices_flatten_aux L hL audio.length audio (Nat.le_refl _),
   rfl,
   fun D silres recognize hf => transcribe_video_empty_audio D silres recognize hf⟩

theorem C9_witness :
    (fixedSlices [5, 6, 7, 8] 3).length = 2
    ∧ (fixedSlices [5, 6, 7, 8] 3).flatten = [5, 6, 7, 8]
    ∧ transcribe_video true [] 1 (Except.error [])
        (fun _ => RecognitionOutcome.unknownValue) = none :=
  ⟨(C9_spec [5, 6, 7, 8] 3 (by decide)).1,
   (C9_spec [5, 6, 7, 8] 3 (by decide)).2.2.1,
   (C9_spec [5, 6, 7, 8] 3 (by decide)).2.2.2.2 1 (Except.error [])
     (fun _ => RecognitionOutcome.unknownValue) (by decide)⟩
